import Mathlib

/-!
Verification of the cashier block-oriented storage engine
(`storage/badger.go`, `storage/aws.go`, `storage/storage.go`,
`cumulative/cumulative.go`).

The state of one logical file key is shallowly embedded: the metadata
record (`info`) and the block records become a `Store`; each Go storage
operation becomes a pure Lean function from `Store` to result plus new
`Store`.  The embedded key-value backend runs each operation inside an
ACID update transaction, so an operation that returns an error leaves
the original store; the object-store backend (`aws.go`) commits blocks
before metadata, which `awsWriteAt` mirrors.

Machine integers: Go `int64` positions and lengths become `Int`
(no overflow is reachable in the claims' ranges); byte-slice lengths
and block indices become `Nat`.  Go `/` and `%` on `int64` truncate
toward zero, embedded as `Int.tdiv` / `Int.tmod` where an operand may be
negative.

The MD5 digest is embedded at the granularity the engine observes it:
its running state is exactly the sequence of bytes fed so far (MD5's
state is a deterministic, serializable function of that sequence, and
the engine only marshals the state, feeds bytes and compares final
digests for equality).  `digestOf` stands for the final digest; the
claims use digest equality only as a branch condition, so the
idealization (an injective digest) is stated as an explicit hypothesis
wherever a "matching"/"mismatching" declared hash is assumed.
Timestamps become `Nat`, the Go zero `time.Time` being `0`.
-/

namespace Cashier

/-- A byte of file content. -/
abbrev Byte := Nat

/-- `BlockSize` constant from `storage.go` (16 * 1024). -/
def BlockSize : Nat := 16384

/-- Sentinel position: file finalized (`FileComplete = -1`). -/
def FileComplete : Int := -1

/-- Sentinel position: error return (`InvalidPos = -2`). -/
def InvalidPos : Int := -2

/-- The sentinel errors of `storage.go`.  `errDiverge` is not a source
error: it marks fuel exhaustion in the embedding of the `ReadAt` copy
loop, i.e. an input on which the Go loop would not terminate; it is
proved unreachable for well-formed stores. -/
inductive Err where
  | errExists
  | errNotFound
  | errInvalidSize
  | errInvalidPos
  | errInvalidHash
  | errIncomplete
  | errDiverge
deriving DecidableEq, Repr

/-- The metadata record (`info` struct).  `hash`/`curHash` model the
hex strings: the hex encoding is injective so a hex string is embedded
as the byte list it encodes; the empty string `""` is `[]` for `hash`
and `none` for `curHash` (a marshaled-but-empty MD5 stream is
`some []`, distinct from `""`, exactly as the marshaled MD5 initial
state is a non-empty hex string). -/
structure Info where
  name : String
  contentType : String
  hash : List Byte
  length : Int
  created : Nat
  curPos : Int
  curHash : Option (List Byte)
deriving DecidableEq, Repr

/-- The block records of one file key: an association list from block
index to block content; the most recent write of an index shadows
older entries (key-value store semantics). -/
abbrev Blocks := List (Nat × List Byte)

/-- Lookup of a block record (`txn.Get(blockKey(key, i))`). -/
def getBlock (bs : Blocks) (i : Nat) : Option (List Byte) :=
  match bs with
  | [] => none
  | (j, d) :: rest => if j = i then some d else getBlock rest i

/-- Store of a block record (`txn.SetWithTTL(blockKey(key, i), ...)`). -/
def setBlock (bs : Blocks) (i : Nat) (d : List Byte) : Blocks :=
  (i, d) :: bs

/-- Deletion of a block record (`txn.Delete(blockKey(key, i))`). -/
def delBlock (bs : Blocks) (i : Nat) : Blocks :=
  bs.filter (fun p => p.1 ≠ i)

/-- All records of one logical file key. -/
structure Store where
  meta : Option Info
  blocks : Blocks
deriving DecidableEq, Repr

/-- The store with no records for the key. -/
def emptyStore : Store := { meta := none, blocks := [] }

/-- The running MD5 state determined by a fed byte stream; the final
digest the engine compares (`curHash.Sum(nil)`, hex-encoded). -/
def digestOf (stream : List Byte) : List Byte := stream

/-- `unmarshalHash`: an empty `CurHash` string leaves the hash freshly
initialized (empty stream); otherwise the saved state is restored. -/
def unmarshalHashState : Option (List Byte) → List Byte
  | none => []
  | some st => st

/-- `CreateFile` (`badger.go:49`): conditional insert of the metadata
record.  The Go code never assigns `Created`, so the record is stored
with the zero timestamp, `CurPos = 0` and an empty `CurHash`. -/
def createFile (s : Store) (filename ctype : String) (size : Int)
    (hash : List Byte) : Option Err × Store :=
  match s.meta with
  | some _ => (some .errExists, s)
  | none =>
    (none, { s with meta := some { name := filename, contentType := ctype,
                                   hash := hash, length := size, created := 0,
                                   curPos := 0, curHash := none } })

/-- Delete block records `0 … n-1` (the delete loop of `DeleteFile`). -/
def delBlocksUpTo (bs : Blocks) : Nat → Blocks
  | 0 => bs
  | n + 1 => delBlock (delBlocksUpTo bs n) n

/-- `DeleteFile` (`badger.go:71`): absent key is a no-op; otherwise the
metadata record is deleted, then every block up to the highwater
(`CurPos` if incomplete, else `Length`). -/
def deleteFile (s : Store) : Option Err × Store :=
  match s.meta with
  | none => (none, s)
  | some fi =>
    let length : Int := if fi.curPos ≥ 0 then fi.curPos else fi.length
    let blocks : Int :=
      Int.tdiv length (BlockSize : Int) +
        (if Int.tmod length (BlockSize : Int) > 0 then 1 else 0)
    (none, { meta := none, blocks := delBlocksUpTo s.blocks blocks.toNat })

/-- The block-writing loop of `WriteAt` (`badger.go:179-196`), with an
explicit iteration bound making the recursion structural: every
iteration of the Go `for ldata > 0` loop removes `min(B, ldata) ≥ 1`
bytes, so `data.length` iterations always suffice and the bound is
never hit. -/
def writeLoopAux : Nat → Blocks → List Byte → Nat → List Byte →
    Blocks × List Byte
  | 0, bs, hstate, _, _ => (bs, hstate)
  | fuel + 1, bs, hstate, block, data =>
    if data.length = 0 then (bs, hstate)
    else
      writeLoopAux fuel (setBlock bs block (data.take BlockSize))
        (hstate ++ data.take BlockSize) (block + 1) (data.drop BlockSize)

/-- The block-writing loop of `WriteAt` (`badger.go:179-196`): slices
of at most `BlockSize` bytes are stored at consecutive block indices
while each slice is fed to the running hash (`curHash.Write(buf)`);
returns the updated blocks and hash state. -/
def writeLoop (bs : Blocks) (hstate : List Byte) (block : Nat)
    (data : List Byte) : Blocks × List Byte :=
  writeLoopAux data.length bs hstate block data

/-- `WriteAt` (`badger.go:114-231`).  Result: the returned position
(`InvalidPos` on error), the error, and the store after the update
transaction (the original store whenever an error is returned, the
transaction rolling back).  The source's `nblocks += 1` bump at
line 166 is dead code (`nblocks` is unused afterwards) and is omitted. -/
def writeAt (s : Store) (pos : Int) (data : List Byte) (now : Nat) :
    Int × Option Err × Store :=
  if pos < 0 then (InvalidPos, some .errInvalidPos, s)
  else
    let p : Nat := pos.toNat
    let nblocks : Nat := data.length / BlockSize
    let rest : Nat := data.length % BlockSize
    let startBlock : Nat := p / BlockSize
    let rr : Nat := p % BlockSize
    if rr ≠ 0 then (InvalidPos, some .errInvalidPos, s)
    else
      match s.meta with
      | none => (InvalidPos, some .errNotFound, s)
      | some fi =>
        if fi.curPos < 0 then (InvalidPos, some .errExists, s)
        else if pos ≠ fi.curPos then (InvalidPos, some .errInvalidPos, s)
        else if pos + (data.length : Int) > fi.length then
          (InvalidPos, some .errInvalidSize, s)
        else
          let fblocks : Int := Int.tdiv fi.length (BlockSize : Int)
          if ((startBlock : Int) + (nblocks : Int) < fblocks ∧ rest ≠ 0) then
            (InvalidPos, some .errInvalidSize, s)
          else
            let wr := writeLoop s.blocks (unmarshalHashState fi.curHash)
                        startBlock data
            let hh := digestOf wr.2
            if fi.curPos + (data.length : Int) = fi.length then
              if fi.hash = [] then
                let fi' := { fi with hash := hh, curPos := FileComplete,
                                     curHash := none, created := now }
                (FileComplete, none, { meta := some fi', blocks := wr.1 })
              else if fi.hash ≠ hh then
                (InvalidPos, some .errInvalidHash, s)
              else
                let fi' := { fi with curPos := FileComplete,
                                     curHash := none, created := now }
                (FileComplete, none, { meta := some fi', blocks := wr.1 })
            else
              let fi' := { fi with curHash := some wr.2,
                                   curPos := fi.curPos + (data.length : Int),
                                   created := now }
              (fi.curPos + (data.length : Int), none,
               { meta := some fi', blocks := wr.1 })

/-- `awsStorage.WriteAt` (`aws.go:594-698`): identical validation and
loop, but blocks are committed to the object store before the metadata
update, so the `ErrInvalidHash` return leaves the freshly written
block objects in place while the metadata row stays unchanged. -/
def awsWriteAt (s : Store) (pos : Int) (data : List Byte) (now : Nat) :
    Int × Option Err × Store :=
  if pos < 0 then (InvalidPos, some .errInvalidPos, s)
  else
    let p : Nat := pos.toNat
    let nblocks : Nat := data.length / BlockSize
    let rest : Nat := data.length % BlockSize
    let startBlock : Nat := p / BlockSize
    let rr : Nat := p % BlockSize
    if rr ≠ 0 then (InvalidPos, some .errInvalidPos, s)
    else
      match s.meta with
      | none => (InvalidPos, some .errNotFound, s)
      | some fi =>
        if fi.curPos < 0 then (InvalidPos, some .errExists, s)
        else if pos ≠ fi.curPos then (InvalidPos, some .errInvalidPos, s)
        else if pos + (data.length : Int) > fi.length then
          (InvalidPos, some .errInvalidSize, s)
        else
          let fblocks : Int := Int.tdiv fi.length (BlockSize : Int)
          if ((startBlock : Int) + (nblocks : Int) < fblocks ∧ rest ≠ 0) then
            (InvalidPos, some .errInvalidSize, s)
          else
            let wr := writeLoop s.blocks (unmarshalHashState fi.curHash)
                        startBlock data
            let hh := digestOf wr.2
            if fi.curPos + (data.length : Int) = fi.length then
              if fi.hash = [] then
                let fi' := { fi with hash := hh, curPos := FileComplete,
                                     curHash := none, created := now }
                (FileComplete, none, { meta := some fi', blocks := wr.1 })
              else if fi.hash ≠ hh then
                (InvalidPos, some .errInvalidHash, { s with blocks := wr.1 })
              else
                let fi' := { fi with curPos := FileComplete,
                                     curHash := none, created := now }
                (FileComplete, none, { meta := some fi', blocks := wr.1 })
            else
              let fi' := { fi with curHash := some wr.2,
                                   curPos := fi.curPos + (data.length : Int),
                                   created := now }
              (fi.curPos + (data.length : Int), none,
               { meta := some fi', blocks := wr.1 })

/-- The copy loop of `ReadAt` (`badger.go:269-295`), fueled: one unit
of fuel per iteration.  Returns the bytes copied so far (`nread`
octets) and the error.  `errDiverge` on fuel exhaustion marks an input
on which the Go `for` loop would iterate beyond the fuel bound. -/
def readLoop (bs : Blocks) (fuel block offs lbuf : Nat) (acc : List Byte) :
    List Byte × Option Err :=
  match fuel with
  | 0 => (acc, some .errDiverge)
  | fuel + 1 =>
    if lbuf = 0 then (acc, none)
    else
      match getBlock bs block with
      | none => (acc, some .errNotFound)
      | some d0 =>
        let d := d0.drop offs
        if lbuf > d.length then
          readLoop bs fuel (block + 1) 0 (lbuf - d.length) (acc ++ d)
        else
          (acc ++ d.take lbuf, none)

/-- `ReadAt` (`badger.go:233-301`).  The caller's buffer is embedded
by its length `buflen`; the bytes copied into it are returned as a
list (`nread` = its length).  The fuel `lbuf + |blocks| + 1` bounds
the iterations of any terminating run of the Go loop: an iteration
either copies at least one byte, or consumes a stored (empty) block
record, or stops. -/
def readAt (s : Store) (buflen : Nat) (pos : Int) :
    List Byte × Option Err :=
  if pos < 0 then ([], some .errInvalidPos)
  else
    match s.meta with
    | none => ([], some .errNotFound)
    | some fi =>
      if fi.curPos ≠ FileComplete then ([], some .errIncomplete)
      else if pos > fi.length then ([], some .errInvalidPos)
      else
        let p : Nat := pos.toNat
        let lbuf : Nat := min buflen (fi.length - pos).toNat
        readLoop s.blocks (lbuf + s.blocks.length + 1)
          (p / BlockSize) (p % BlockSize) lbuf []

/-- The `FileInfo` snapshot returned by `Stat` (`ExpiresAt`, pure TTL
bookkeeping, is not embedded). -/
structure FileInfo where
  name : String
  contentType : String
  hash : List Byte
  length : Int
  next : Int
  created : Nat
deriving DecidableEq, Repr

/-- `Stat` (`badger.go:304-335`): returns the snapshot and the error
(Go returns the pair `(*FileInfo, error)`). -/
def stat (s : Store) : Option Err × Option FileInfo :=
  match s.meta with
  | none => (some .errNotFound, none)
  | some fi =>
    (none,
     some { name := fi.name, contentType := fi.contentType, hash := fi.hash,
            length := fi.length, next := fi.curPos, created := fi.created })

/-- The next position a legal writer must use: the stored `CurPos`
(`Stat(K).Next`); `0` for an absent key. -/
def nextPos (s : Store) : Int :=
  match s.meta with
  | some fi => fi.curPos
  | none => 0

/-- A client upload loop: each `WriteAt` is issued at the then-current
`CurPos`; the result of the last call is returned. -/
def writeList (s : Store) (ds : List (List Byte)) (now : Nat) :
    Int × Option Err × Store :=
  match ds with
  | [] => (InvalidPos, none, s)
  | [d] => writeAt s (nextPos s) d now
  | d :: ds => writeList (writeAt s (nextPos s) d now).2.2 ds now

/-- The commutative cumulative digest of `cumulative/cumulative.go`:
`current` is `nil` (`none`) until the first `Write`. -/
structure CDigest where
  current : Option (List Byte)
deriving DecidableEq, Repr

/-- `md5.Size` (16), the value of the digest's `Size()` method. -/
def CDigest.size : Nat := 16

/-- `digest.MarshalBinary` (`cumulative.go:53`): returns the internal
state verbatim (a `nil` state marshals to the empty byte string). -/
def CDigest.marshalBinary (d : CDigest) : List Byte :=
  match d.current with
  | none => []
  | some c => c

/-- `digest.UnmarshalBinary` (`cumulative.go:57`), with the guard
exactly as written in the source:
`if len(b) != d.Size() && len(b) == 0 { return error }`. -/
def CDigest.unmarshalBinary (d : CDigest) (b : List Byte) :
    Option String × CDigest :=
  if b.length ≠ CDigest.size ∧ b.length = 0 then
    (some "cumulative: invalid hash state size", d)
  else
    (none, { current := some b })

end Cashier

namespace Cashier

/-! ### Helper lemmas -/

theorem getBlock_setBlock (bs : Blocks) (i j : Nat) (d : List Byte) :
    getBlock (setBlock bs i d) j = if i = j then some d else getBlock bs j := by
  simp [getBlock, setBlock]

theorem writeLoopAux_nil (fuel : Nat) (bs : Blocks) (h : List Byte)
    (block : Nat) : writeLoopAux fuel bs h block [] = (bs, h) := by
  cases fuel <;> simp [writeLoopAux]

theorem writeLoop_nil (bs : Blocks) (h : List Byte) (block : Nat) :
    writeLoop bs h block [] = (bs, h) :=
  writeLoopAux_nil _ _ _ _

theorem writeLoopAux_hash (fuel : Nat) :
    ∀ (bs : Blocks) (h : List Byte) (block : Nat) (data : List Byte),
      data.length ≤ fuel →
      (writeLoopAux fuel bs h block data).2 = h ++ data := by
  induction fuel with
  | zero =>
    intro bs h block data hle
    have : data = [] := List.length_eq_zero.mp (Nat.le_zero.mp hle)
    subst this
    simp [writeLoopAux]
  | succ fuel ih =>
    intro bs h block data hle
    by_cases hnil : data.length = 0
    · have : data = [] := List.length_eq_zero.mp hnil
      subst this
      simp [writeLoopAux]
    · have hBpos : 0 < BlockSize := by decide
      simp only [writeLoopAux, if_neg hnil]
      rw [ih _ _ _ _ (by simp only [List.length_drop]; omega)]
      rw [List.append_assoc, List.take_append_drop]

theorem writeLoop_hash (bs : Blocks) (h : List Byte) (block : Nat)
    (data : List Byte) : (writeLoop bs h block data).2 = h ++ data :=
  writeLoopAux_hash data.length bs h block data le_rfl

/-- The block records hold exactly the `BlockSize`-partition of the
content `w` written so far: block `i` (for every `i` whose span starts
before the end of `w`) stores `w[i*B .. min((i+1)*B, |w|))`.  Records
at higher indices are unconstrained (unreachable garbage). -/
def BlocksRepr (bs : Blocks) (w : List Byte) : Prop :=
  ∀ i : Nat, i * BlockSize < w.length →
    getBlock bs i = some ((w.drop (i * BlockSize)).take BlockSize)

theorem blocksRepr_nil (bs : Blocks) : BlocksRepr bs [] := by
  intro i hi
  simp at hi

/-- A chunk strictly before an aligned suffix is unaffected by
appending: `((c ++ t).drop (i*B)).take B = (c.drop (i*B)).take B`
when `i*B + B ≤ |c|`. -/
theorem chunk_append_left {c t : List Byte} {i : Nat}
    (hle : i * BlockSize + BlockSize ≤ c.length) :
    ((c ++ t).drop (i * BlockSize)).take BlockSize =
    (c.drop (i * BlockSize)).take BlockSize := by
  rw [List.drop_append_eq_append_drop, List.take_append_eq_append_take]
  have h1 : i * BlockSize - c.length = 0 := by omega
  have h2 : (c.drop (i * BlockSize)).length = c.length - i * BlockSize := by
    simp
  have h3 : BlockSize - (c.drop (i * BlockSize)).length = 0 := by omega
  simp only [h1, List.drop_zero, h3, List.take_zero, List.append_nil]

/-- After the write loop the block records represent `c ++ data`,
provided they represented `c` before and the loop starts at the block
boundary `|c| = block * B`. -/
theorem blocksRepr_setBlock (bs : Blocks) (c t : List Byte) (block : Nat)
    (hlen : c.length = block * BlockSize) (htle : t.length ≤ BlockSize)
    (hrep : BlocksRepr bs c) :
    BlocksRepr (setBlock bs block t) (c ++ t) := by
  intro i hi
  simp only [List.length_append] at hi
  rw [getBlock_setBlock]
  by_cases hib : block = i
  · subst hib
    rw [if_pos rfl]
    congr 1
    rw [List.drop_append_eq_append_drop]
    have h0 : block * BlockSize - c.length = 0 := by omega
    have h1 : (c.drop (block * BlockSize)).length = 0 := by simp [hlen]
    rw [h0, List.take_append_eq_append_take]
    simp only [List.drop_zero]
    rw [List.length_eq_zero.mp h1]
    simp [List.take_of_length_le htle]
  · rw [if_neg hib]
    have hlt : i < block := by
      by_contra hcon
      push_neg at hcon
      have h2 : block + 1 ≤ i := by omega
      have h3 : (block + 1) * BlockSize ≤ i * BlockSize :=
        Nat.mul_le_mul_right _ h2
      have hBB : (block + 1) * BlockSize = c.length + BlockSize := by
        rw [Nat.succ_mul, hlen]
      omega
    have hch : i * BlockSize + BlockSize ≤ c.length := by
      have h4 : (i + 1) * BlockSize ≤ block * BlockSize :=
        Nat.mul_le_mul_right _ (by omega)
      calc i * BlockSize + BlockSize = (i + 1) * BlockSize := by ring
        _ ≤ block * BlockSize := h4
        _ = c.length := hlen.symm
    have hlt' : i * BlockSize < c.length := by
      have : 0 < BlockSize := by decide
      omega
    rw [chunk_append_left hch]
    exact hrep i hlt'

theorem writeLoopAux_repr (fuel : Nat) :
    ∀ (bs : Blocks) (h : List Byte) (block : Nat) (data c : List Byte),
      data.length ≤ fuel → c.length = block * BlockSize → BlocksRepr bs c →
      BlocksRepr (writeLoopAux fuel bs h block data).1 (c ++ data) := by
  induction fuel with
  | zero =>
    intro bs h block data c hle hlen hrep
    have : data = [] := List.length_eq_zero.mp (Nat.le_zero.mp hle)
    subst this
    simpa [writeLoopAux] using hrep
  | succ fuel ih =>
    intro bs h block data c hle hlen hrep
    by_cases hnil : data.length = 0
    · have : data = [] := List.length_eq_zero.mp hnil
      subst this
      simpa [writeLoopAux] using hrep
    · simp only [writeLoopAux, if_neg hnil]
      by_cases hbig : BlockSize < data.length
      · have htake : (data.take BlockSize).length = BlockSize := by
          simp
          omega
        have hrec := ih (setBlock bs block (data.take BlockSize))
          (h ++ data.take BlockSize) (block + 1) (data.drop BlockSize)
          (c ++ data.take BlockSize)
          (by simp only [List.length_drop]
              have : 0 < BlockSize := by decide
              omega)
          (by simp [htake, hlen, Nat.succ_mul])
          (blocksRepr_setBlock bs c (data.take BlockSize) block hlen
            (by simp) hrep)
        have heq : c ++ data.take BlockSize ++ data.drop BlockSize =
            c ++ data := by
          rw [List.append_assoc, List.take_append_drop]
        rwa [heq] at hrec
      · push_neg at hbig
        have hdrop : data.drop BlockSize = [] := List.drop_eq_nil_of_le hbig
        have htake : data.take BlockSize = data := List.take_of_length_le hbig
        rw [hdrop, htake, writeLoopAux_nil]
        exact blocksRepr_setBlock bs c data block hlen hbig hrep

theorem writeLoop_repr (bs : Blocks) (h : List Byte) (block : Nat)
    (data : List Byte) :
    ∀ c : List Byte, c.length = block * BlockSize → BlocksRepr bs c →
      BlocksRepr (writeLoop bs h block data).1 (c ++ data) :=
  fun c hlen hrep =>
    writeLoopAux_repr data.length bs h block data c le_rfl hlen hrep

theorem readLoop_repr (w : List Byte) (bs : Blocks) (hrep : BlocksRepr bs w) :
    ∀ fuel lbuf block offs acc, lbuf + 1 ≤ fuel →
      block * BlockSize + offs + lbuf ≤ w.length → offs < BlockSize →
      readLoop bs fuel block offs lbuf acc =
        (acc ++ (w.drop (block * BlockSize + offs)).take lbuf, none) := by
  intro fuel
  induction fuel with
  | zero =>
    intro lbuf block offs acc hfuel _ _
    omega
  | succ fuel ih =>
    intro lbuf block offs acc hfuel hbound hoffs
    by_cases hl : lbuf = 0
    · subst hl
      simp [readLoop]
    · have hblock : block * BlockSize < w.length := by omega
      have hBpos : 0 < BlockSize := by decide
      simp only [readLoop, if_neg hl, hrep block hblock]
      have hdeq : ((w.drop (block * BlockSize)).take BlockSize).drop offs =
          (w.drop (block * BlockSize + offs)).take (BlockSize - offs) := by
        rw [List.drop_take, List.drop_drop]
      have hwlen : (w.drop (block * BlockSize + offs)).length =
          w.length - (block * BlockSize + offs) := by simp
      have hdlen : (((w.drop (block * BlockSize)).take BlockSize).drop offs).length =
          min (BlockSize - offs) (w.length - (block * BlockSize + offs)) := by
        rw [hdeq, List.length_take, hwlen]
      by_cases hgt :
          lbuf > (((w.drop (block * BlockSize)).take BlockSize).drop offs).length
      · rw [if_pos hgt]
        have hfull : (((w.drop (block * BlockSize)).take BlockSize).drop offs).length
            = BlockSize - offs := by
          rw [hdlen]
          omega
        have hrec := ih (lbuf - (BlockSize - offs)) (block + 1) 0 (acc ++
            ((w.drop (block * BlockSize)).take BlockSize).drop offs)
          (by omega)
          (by have : (block + 1) * BlockSize = block * BlockSize + BlockSize :=
                Nat.succ_mul block BlockSize
              omega)
          hBpos
        rw [hfull, hrec]
        have hsplit : (w.drop (block * BlockSize + offs)).take lbuf =
            (w.drop (block * BlockSize + offs)).take (BlockSize - offs) ++
            (w.drop ((block + 1) * BlockSize + 0)).take (lbuf - (BlockSize - offs)) := by
          have hadd : (BlockSize - offs) + (lbuf - (BlockSize - offs)) = lbuf := by
            omega
          have ht := List.take_add (w.drop (block * BlockSize + offs))
            (BlockSize - offs) (lbuf - (BlockSize - offs))
          rw [hadd] at ht
          rw [ht, List.drop_drop]
          have h2 : block * BlockSize + offs + (BlockSize - offs) =
              (block + 1) * BlockSize + 0 := by
            have : (block + 1) * BlockSize = block * BlockSize + BlockSize :=
              Nat.succ_mul block BlockSize
            omega
          rw [h2]
        rw [hsplit, hdeq, List.append_assoc]
      · rw [if_neg hgt]
        have hle : lbuf ≤ BlockSize - offs := by
          rw [hdlen] at hgt
          omega
        rw [hdeq, List.take_take]
        congr 3
        omega

theorem readAt_complete (s : Store) (fi : Info) (w : List Byte)
    (hm : s.meta = some fi) (hc : fi.curPos = FileComplete)
    (hlen : fi.length = (w.length : Int)) (hrep : BlocksRepr s.blocks w)
    (buflen : Nat) (pos : Int) (h0 : 0 ≤ pos) (hpos : pos ≤ (w.length : Int)) :
    readAt s buflen pos =
      ((w.drop pos.toNat).take (min buflen (w.length - pos.toNat)), none) := by
  have hnotlt : ¬pos < 0 := by omega
  have hngt : ¬pos > fi.length := by omega
  simp only [readAt, if_neg hnotlt, hm, if_neg hngt, hc, ite_not, if_pos rfl]
  have hlb : (fi.length - pos).toNat = w.length - pos.toNat := by
    omega
  rw [hlb]
  have hBpos : 0 < BlockSize := by decide
  have hloop := readLoop_repr w s.blocks hrep
    (min buflen (w.length - pos.toNat) + s.blocks.length + 1)
    (min buflen (w.length - pos.toNat))
    (pos.toNat / BlockSize) (pos.toNat % BlockSize) []
    (by omega)
    (by have h1 := Nat.div_add_mod' pos.toNat BlockSize
        have hp : pos.toNat ≤ w.length := by omega
        omega)
    (Nat.mod_lt _ hBpos)
  rw [hloop, Nat.div_add_mod']
  simp

theorem tdiv_natCast (m n : Nat) :
    Int.tdiv (m : Int) (n : Int) = ((m / n : Nat) : Int) := rfl

/-- The state of a key holding an in-progress upload whose bytes so
far are `c`: the metadata carries `CurPos = |c|` (block aligned, not
past `Length`) and the serialized hash continuation of `c`, and the
block records hold the partition of `c`. -/
def OpenRep (s : Store) (name ct : String) (h : List Byte) (L : Int)
    (c : List Byte) : Prop :=
  (∃ t ch, s.meta = some { name := name, contentType := ct, hash := h,
                           length := L, created := t,
                           curPos := (c.length : Int), curHash := ch } ∧
     unmarshalHashState ch = c) ∧
  BlocksRepr s.blocks c ∧ c.length % BlockSize = 0 ∧ (c.length : Int) ≤ L

theorem createFile_openRep (s : Store) (name ct : String) (h : List Byte)
    (L : Int) (hm : s.meta = none) (hL : 0 ≤ L) :
    (createFile s name ct L h).1 = none ∧
    OpenRep (createFile s name ct L h).2 name ct h L [] := by
  refine ⟨by simp [createFile, hm], ⟨0, none, by simp [createFile, hm], rfl⟩,
    blocksRepr_nil _, by simp, by simpa using hL⟩

/-- A non-final aligned append: `WriteAt` at `pos = CurPos = |c|` with
`|d| % B = 0` and `|c| + |d| < L` succeeds, returns the new cursor and
preserves the open-state representation with content `c ++ d`. -/
theorem writeAt_append_step (s : Store) (name ct : String) (h : List Byte)
    (L : Int) (c d : List Byte) (now : Nat)
    (hrep : OpenRep s name ct h L c)
    (halign : d.length % BlockSize = 0)
    (hlt : ((c.length + d.length : Nat) : Int) < L) :
    writeAt s (c.length : Int) d now =
      (((c.length + d.length : Nat) : Int), none,
        (writeAt s (c.length : Int) d now).2.2) ∧
    OpenRep (writeAt s (c.length : Int) d now).2.2 name ct h L (c ++ d) := by
  obtain ⟨⟨t, ch, hm, hch⟩, hbrep, hcalign, hcle⟩ := hrep
  have hpos0 : ¬((c.length : Int) < 0) := by omega
  have hsize : ¬((c.length : Int) + (d.length : Int) > L) := by
    push_cast at hlt ⊢
    omega
  have hfin : ¬((c.length : Int) + (d.length : Int) = L) := by
    push_cast at hlt ⊢
    omega
  simp only [writeAt, if_neg hpos0, Int.toNat_natCast, hcalign, ne_eq,
    not_true_eq_false, not_false_eq_true, if_neg, ite_false, hm,
    if_neg hsize, halign, and_false, if_false, hch, if_neg hfin]
  refine ⟨?_, ⟨now, some (writeLoop s.blocks c (c.length / BlockSize) d).2,
      ?_, ?_⟩, ?_, ?_, ?_⟩
  · simp only [Nat.cast_add]
  · simp only [List.length_append, Nat.cast_add]
  · simp [unmarshalHashState, writeLoop_hash]
  · have hc : c.length = (c.length / BlockSize) * BlockSize :=
      (Nat.div_mul_cancel (Nat.dvd_of_mod_eq_zero hcalign)).symm
    exact writeLoop_repr s.blocks c (c.length / BlockSize) d c hc hbrep
  · simp only [List.length_append]
    rw [Nat.add_mod, hcalign, halign]
    simp
  · simp only [List.length_append]
    push_cast at hlt ⊢
    omega

/-- The finalizing write: `WriteAt` at `pos = CurPos = |c|` with
`|c| + |d| = L` and a declared hash that is empty or matches the
digest of the full content succeeds, returns `FileComplete`, and
leaves a complete metadata record whose blocks hold `c ++ d`. -/
theorem writeAt_final_step (s : Store) (name ct : String) (h : List Byte)
    (L : Int) (c d : List Byte) (now : Nat)
    (hrep : OpenRep s name ct h L c)
    (heq : ((c.length + d.length : Nat) : Int) = L)
    (hhash : h = [] ∨ h = c ++ d) :
    (writeAt s (c.length : Int) d now).1 = FileComplete ∧
    (writeAt s (c.length : Int) d now).2.1 = none ∧
    ∃ fi, (writeAt s (c.length : Int) d now).2.2.meta = some fi ∧
      fi.name = name ∧ fi.contentType = ct ∧
      fi.curPos = FileComplete ∧ fi.length = L ∧ fi.created = now ∧
      fi.curHash = none ∧
      (fi.hash = h ∨ (h = [] ∧ fi.hash = digestOf (c ++ d))) ∧
      BlocksRepr (writeAt s (c.length : Int) d now).2.2.blocks (c ++ d) := by
  obtain ⟨⟨t, ch, hm, hch⟩, hbrep, hcalign, hcle⟩ := hrep
  have hpos0 : ¬((c.length : Int) < 0) := by omega
  have hsize : ¬((c.length : Int) + (d.length : Int) > L) := by
    push_cast at heq
    omega
  have hfin : (c.length : Int) + (d.length : Int) = L := by
    push_cast at heq
    omega
  have hcdvd : c.length = BlockSize * (c.length / BlockSize) :=
    (Nat.mul_div_cancel' (Nat.dvd_of_mod_eq_zero hcalign)).symm
  have hdiv : (c.length + d.length) / BlockSize =
      c.length / BlockSize + d.length / BlockSize := by
    conv_lhs => rw [hcdvd]
    rw [Nat.mul_add_div (by decide)]
  have hnb : ¬(((c.length / BlockSize : Nat) : Int) +
      ((d.length / BlockSize : Nat) : Int) < Int.tdiv L (BlockSize : Int) ∧
      ¬d.length % BlockSize = 0) := by
    rw [← heq, tdiv_natCast, hdiv]
    rintro ⟨hlt2, -⟩
    push_cast at hlt2
    omega
  have hrepr : BlocksRepr
      (writeLoop s.blocks c (c.length / BlockSize) d).1 (c ++ d) := by
    have hc : c.length = (c.length / BlockSize) * BlockSize :=
      (Nat.div_mul_cancel (Nat.dvd_of_mod_eq_zero hcalign)).symm
    exact writeLoop_repr s.blocks c (c.length / BlockSize) d c hc hbrep
  simp only [writeAt, if_neg hpos0, Int.toNat_natCast, hcalign, ne_eq,
    not_true_eq_false, not_false_eq_true, if_neg, ite_false, hm,
    if_neg hsize, if_neg hnb, hch, if_pos hfin]
  by_cases hhe : h = []
  · rw [if_pos hhe]
    refine ⟨rfl, rfl, _, rfl, rfl, rfl, rfl, rfl, rfl, rfl,
      Or.inr ⟨hhe, by simp [digestOf, writeLoop_hash]⟩, hrepr⟩
  · rw [if_neg hhe]
    have hhcd : h = c ++ d := hhash.resolve_left hhe
    rw [if_neg (by simp [digestOf, writeLoop_hash, hhcd])]
    exact ⟨rfl, rfl, _, rfl, rfl, rfl, rfl, rfl, rfl, rfl, Or.inl rfl, hrepr⟩

theorem writeList_spec (ds : List (List Byte)) :
    ∀ (s : Store) (name ct : String) (h : List Byte) (L : Int)
      (c : List Byte) (now : Nat), ds ≠ [] →
      OpenRep s name ct h L c →
      ((c.length + ds.join.length : Nat) : Int) = L →
      (∀ d ∈ ds.dropLast, d.length % BlockSize = 0) →
      (∀ i : Nat, i + 1 < ds.length →
        ((c.length + ((ds.take (i + 1)).join).length : Nat) : Int) < L) →
      (h = [] ∨ h = c ++ ds.join) →
      (writeList s ds now).1 = FileComplete ∧
      (writeList s ds now).2.1 = none ∧
      ∃ fi, (writeList s ds now).2.2.meta = some fi ∧
        fi.name = name ∧ fi.contentType = ct ∧
        fi.curPos = FileComplete ∧ fi.length = L ∧
        BlocksRepr (writeList s ds now).2.2.blocks (c ++ ds.join) := by
  induction ds with
  | nil =>
    intro s name ct h L c now hne
    exact absurd rfl hne
  | cons d ds ih =>
    intro s name ct h L c now _ hrep hsum halign hpre hhash
    have hnext : nextPos s = (c.length : Int) := by
      obtain ⟨⟨t, ch, hm, -⟩, -, -, -⟩ := hrep
      simp [nextPos, hm]
    match ds with
    | [] =>
      have hsum' : ((c.length + d.length : Nat) : Int) = L := by
        simpa using hsum
      have hhash' : h = [] ∨ h = c ++ d := by
        simpa using hhash
      have hfinal := writeAt_final_step s name ct h L c d now hrep hsum' hhash'
      simp only [writeList, hnext]
      obtain ⟨h1, h2, fi, hfi, hn, hct, hcp, hl, -, -, -, hbr⟩ := hfinal
      exact ⟨h1, h2, fi, hfi, hn, hct, hcp, hl, by simpa using hbr⟩
    | d2 :: ds' =>
      have hd : d.length % BlockSize = 0 := by
        apply halign
        rw [List.dropLast_cons₂]
        exact List.mem_cons_self d _
      have hlt : ((c.length + d.length : Nat) : Int) < L := by
        have := hpre 0 (by simp)
        simpa using this
      have hstep := writeAt_append_step s name ct h L c d now hrep hd hlt
      obtain ⟨heqw, hrep'⟩ := hstep
      have hrw : writeList s (d :: d2 :: ds') now =
          writeList (writeAt s (nextPos s) d now).2.2 (d2 :: ds') now := by
        rfl
      rw [hrw, hnext]
      have hres := ih (writeAt s (c.length : Int) d now).2.2 name ct h L
        (c ++ d) now (by simp) hrep'
        (by have hj : (List.join (d :: d2 :: ds')).length =
              d.length + (List.join (d2 :: ds')).length := by simp
            simp only [List.length_append] at hsum ⊢
            push_cast at hsum hj ⊢
            omega)
        (by intro x hx
            apply halign
            rw [List.dropLast_cons₂]
            exact List.mem_cons_of_mem d hx)
        (by intro i hi
            have hp := hpre (i + 1) (by simpa using hi)
            have ht : (d :: d2 :: ds').take (i + 1 + 1) =
                d :: ((d2 :: ds').take (i + 1)) := rfl
            rw [ht] at hp
            have hj : (List.join (d :: (d2 :: ds').take (i + 1))).length =
                d.length + (List.join ((d2 :: ds').take (i + 1))).length := by
              simp
            simp only [List.length_append] at hp ⊢
            push_cast at hp hj ⊢
            omega)
        (by rcases hhash with he | he
            · exact Or.inl he
            · right
              rw [he]
              simp [List.join])
      obtain ⟨h1, h2, fi, hfi, hn, hct, hcp, hl, hbr⟩ := hres
      refine ⟨h1, h2, fi, hfi, hn, hct, hcp, hl, ?_⟩
      have : c ++ (d :: d2 :: ds').join = (c ++ d) ++ (d2 :: ds').join := by
        simp [List.join]
      rw [this]
      exact hbr

/-! ### Claim theorems -/

/-- C1: for a file created with declared length `L = |w|` and no
declared hash (or one matching the digest of the full content), every
sequence of legal `WriteAt` calls at successive `CurPos` offsets —
lengths multiples of `B` except possibly the last, concatenation `w` —
ends with the final `WriteAt` returning `FileComplete`, `Stat` showing
`Next = FileComplete`, and `ReadAt` at position `0` into a buffer of
at least `L` bytes returning exactly the `L` concatenated bytes. -/
theorem upload_roundtrip (s0 : Store) (name ct : String) (h : List Byte)
    (ds : List (List Byte)) (w : List Byte) (now buflen : Nat)
    (hm : s0.meta = none) (hne : ds ≠ [])
    (hw : w = ds.join)
    (halign : ∀ d ∈ ds.dropLast, d.length % BlockSize = 0)
    (hpre : ∀ i : Nat, i + 1 < ds.length →
      ((ds.take (i + 1)).join).length < w.length)
    (hhash : h = [] ∨ h = digestOf w)
    (hbuf : w.length ≤ buflen) :
    (writeList (createFile s0 name ct (w.length : Int) h).2 ds now).1 =
      FileComplete ∧
    (writeList (createFile s0 name ct (w.length : Int) h).2 ds now).2.1 =
      none ∧
    (∃ fo, stat (writeList (createFile s0 name ct (w.length : Int) h).2
        ds now).2.2 = (none, some fo) ∧ fo.next = FileComplete) ∧
    readAt (writeList (createFile s0 name ct (w.length : Int) h).2
        ds now).2.2 buflen 0 = (w, none) := by
  obtain ⟨-, hrep1⟩ := createFile_openRep s0 name ct h (w.length : Int) hm
    (by positivity)
  have hws := writeList_spec ds (createFile s0 name ct (w.length : Int) h).2
    name ct h (w.length : Int) [] now hne hrep1
    (by rw [hw]
        simp only [List.length_nil]
        push_cast
        ring)
    halign
    (by intro i hi
        have h2 := hpre i hi
        rw [hw] at h2 ⊢
        simp only [List.length_nil]
        omega)
    (by rcases hhash with he | he
        · exact Or.inl he
        · right
          rw [he, hw]
          rfl)
  obtain ⟨h1, h2, fi, hfi, -, -, hcp, hl, hbr⟩ := hws
  refine ⟨h1, h2, ⟨⟨fi.name, fi.contentType, fi.hash, fi.length, fi.curPos,
    fi.created⟩, by simp [stat, hfi], by simp [hcp]⟩, ?_⟩
  have hbr' : BlocksRepr (writeList (createFile s0 name ct
      (w.length : Int) h).2 ds now).2.2.blocks ds.join := by
    simpa using hbr
  rw [← hw] at hbr'
  have hra := readAt_complete _ fi w hfi hcp hl hbr' buflen 0 le_rfl
    (by positivity)
  rw [hra]
  have hmin : min buflen (w.length - (0 : Int).toNat) = w.length := by
    simp only [Int.toNat_zero, Nat.sub_zero]
    omega
  rw [hmin]
  simp

theorem upload_roundtrip_witness :
    (writeList (createFile emptyStore "a" "ct" ((3 : Nat) : Int) []).2
      [[5, 6, 7]] 4).1 = FileComplete ∧
    readAt (writeList (createFile emptyStore "a" "ct" ((3 : Nat) : Int) []).2
      [[5, 6, 7]] 4).2.2 10 0 = ([5, 6, 7], none) := by
  have hr := upload_roundtrip emptyStore "a" "ct" [] [[5, 6, 7]] [5, 6, 7] 4 10
    rfl (by simp) (by simp) (by simp)
    (by intro i hi; simp at hi) (Or.inl rfl) (by simp)
  exact ⟨hr.1, hr.2.2.2⟩

/-- C7: on a complete file whose blocks hold the content `w` of the
declared length, `ReadAt(K, buf, pos)` for any `0 ≤ pos ≤ Length`
succeeds and copies exactly `min(len(buf), Length - pos)` octets
(the bytes `w[pos ..]`), an oversized buffer being clamped instead of
provoking a not-found on the block past EOF. -/
theorem readAt_complete_clamps (s : Store) (fi : Info) (w : List Byte)
    (buflen : Nat) (pos : Int)
    (hm : s.meta = some fi) (hc : fi.curPos = FileComplete)
    (hlen : fi.length = (w.length : Int)) (hrep : BlocksRepr s.blocks w)
    (h0 : 0 ≤ pos) (hpos : pos ≤ fi.length) :
    (readAt s buflen pos).2 = none ∧
    (readAt s buflen pos).1.length = min buflen (fi.length - pos).toNat ∧
    (readAt s buflen pos).1 =
      (w.drop pos.toNat).take (min buflen (w.length - pos.toNat)) := by
  have hpos' : pos ≤ (w.length : Int) := by omega
  have hra := readAt_complete s fi w hm hc hlen hrep buflen pos h0 hpos'
  rw [hra]
  refine ⟨rfl, ?_, rfl⟩
  simp only [List.length_take, List.length_drop]
  omega

theorem readAt_complete_clamps_witness :
    (readAt (writeList (createFile emptyStore "a" "ct" ((3 : Nat) : Int) []).2
      [[5, 6, 7]] 4).2.2 10 1).1 = [6, 7] ∧
    (readAt (writeList (createFile emptyStore "a" "ct" ((3 : Nat) : Int) []).2
      [[5, 6, 7]] 4).2.2 10 1).2 = none := by
  have hr := readAt_complete_clamps
    (writeList (createFile emptyStore "a" "ct" ((3 : Nat) : Int) []).2
      [[5, 6, 7]] 4).2.2
    { name := "a", contentType := "ct", hash := [5, 6, 7], length := 3,
      created := 4, curPos := FileComplete, curHash := none }
    [5, 6, 7] 10 1 (by decide) rfl (by decide)
    (by intro i hi
        simp [BlockSize] at hi
        have hiz : i = 0 := by omega
        subst hiz
        decide)
    (by decide) (by decide)
  refine ⟨?_, hr.1⟩
  rw [hr.2.2]
  decide

/-- Case analysis of one `WriteAt` call: either it fails, returning
`InvalidPos` with the store unchanged (transaction rollback), or it
succeeds from a matching open cursor and stores the advanced record
(`Created = now`), finalized when the write reaches `Length`. -/
theorem writeAt_shape (s : Store) (pos : Int) (d : List Byte) (now : Nat) :
    ((writeAt s pos d now).2.1 ≠ none ∧ (writeAt s pos d now).2.2 = s ∧
      (writeAt s pos d now).1 = InvalidPos) ∨
    (∃ fi, s.meta = some fi ∧ 0 ≤ fi.curPos ∧ pos = fi.curPos ∧
      pos + (d.length : Int) ≤ fi.length ∧
      (writeAt s pos d now).2.1 = none ∧
      (writeAt s pos d now).2.2.blocks = (writeLoop s.blocks
        (unmarshalHashState fi.curHash) (pos.toNat / BlockSize) d).1 ∧
      ((pos + (d.length : Int) = fi.length ∧
        (writeAt s pos d now).1 = FileComplete ∧
        ∃ hsh, (writeAt s pos d now).2.2.meta =
          some { fi with hash := hsh, curPos := FileComplete,
                         curHash := none, created := now }) ∨
       (pos + (d.length : Int) < fi.length ∧
        (writeAt s pos d now).1 = pos + (d.length : Int) ∧
        (writeAt s pos d now).2.2.meta =
          some { fi with curHash := some (writeLoop s.blocks
                           (unmarshalHashState fi.curHash)
                           (pos.toNat / BlockSize) d).2,
                         curPos := pos + (d.length : Int),
                         created := now }))) := by
  by_cases h0 : pos < 0
  · left
    simp only [writeAt, if_pos h0]
    exact ⟨by simp, by trivial, by trivial⟩
  simp only [writeAt, if_neg h0]
  by_cases hrr : pos.toNat % BlockSize = 0
  case neg =>
    left
    rw [if_pos hrr]
    exact ⟨by simp, rfl, rfl⟩
  rw [if_neg (by simpa using hrr)]
  rcases hms : s.meta with _ | fi
  · left
    simp only [hms]
    exact ⟨by simp, by trivial, by trivial⟩
  simp only [hms]
  by_cases hcp : fi.curPos < 0
  · left
    rw [if_pos hcp]
    exact ⟨by simp, rfl, rfl⟩
  rw [if_neg hcp]
  by_cases hpe : pos = fi.curPos
  case neg =>
    left
    rw [if_pos hpe]
    exact ⟨by simp, rfl, rfl⟩
  rw [if_neg (by simpa using hpe)]
  by_cases hsz : pos + (d.length : Int) > fi.length
  · left
    rw [if_pos hsz]
    exact ⟨by simp, rfl, rfl⟩
  rw [if_neg hsz]
  by_cases hfb : ((pos.toNat / BlockSize : Nat) : Int) +
      ((d.length / BlockSize : Nat) : Int) <
      Int.tdiv fi.length ((BlockSize : Nat) : Int) ∧
      d.length % BlockSize ≠ 0
  · left
    rw [if_pos hfb]
    exact ⟨by simp, rfl, rfl⟩
  rw [if_neg hfb]
  by_cases hfin : fi.curPos + (d.length : Int) = fi.length
  · rw [if_pos hfin]
    by_cases hhe : fi.hash = []
    · rw [if_pos hhe]
      right
      exact ⟨fi, by trivial, by omega, hpe, by omega, rfl, rfl,
        Or.inl ⟨by omega, rfl, _, rfl⟩⟩
    · rw [if_neg hhe]
      by_cases hmm : fi.hash = digestOf (writeLoop s.blocks
          (unmarshalHashState fi.curHash) (pos.toNat / BlockSize) d).2
      · rw [if_neg (by simpa using hmm)]
        right
        exact ⟨fi, by trivial, by omega, hpe, by omega, rfl, rfl,
          Or.inl ⟨by omega, rfl, fi.hash, rfl⟩⟩
      · rw [if_pos (by simpa using hmm)]
        left
        exact ⟨by simp, rfl, rfl⟩
  · rw [if_neg hfin]
    right
    refine ⟨fi, by trivial, by omega, hpe, by omega, rfl, rfl,
      Or.inr ⟨by omega, ?_, ?_⟩⟩
    · rw [hpe]
    · rw [hpe]

/-- The per-key state invariant: while incomplete the cursor lies in
`[0, Length]`, on completion it is `FileComplete`; the sentinel
`InvalidPos` is never stored. -/
def Inv (s : Store) : Prop :=
  ∀ fi, s.meta = some fi →
    fi.curPos ≠ InvalidPos ∧
    (fi.curPos = FileComplete ∨ (0 ≤ fi.curPos ∧ fi.curPos ≤ fi.length))

/-- C5: `CreateFile` succeeds exactly when no metadata record for the
key exists; on conflict it returns `ErrExists` and leaves all stored
state unchanged; after a successful call `Stat` reports `Next = 0` and
`Length = L`. -/
theorem createFile_contract (s : Store) (n ct : String) (L : Int)
    (h : List Byte) :
    ((createFile s n ct L h).1 = none ↔ s.meta = none) ∧
    (s.meta ≠ none → createFile s n ct L h = (some .errExists, s)) ∧
    (s.meta = none →
      stat (createFile s n ct L h).2 = (none, some ⟨n, ct, h, L, 0, 0⟩)) := by
  cases hm : s.meta <;> simp [createFile, stat, hm]

theorem createFile_contract_witness :
    (createFile emptyStore "a" "b" 5 [1]).1 = none ∧
    createFile (createFile emptyStore "a" "b" 5 [1]).2 "c" "d" 6 [] =
      (some .errExists, (createFile emptyStore "a" "b" 5 [1]).2) ∧
    stat (createFile emptyStore "a" "b" 5 [1]).2 =
      (none, some ⟨"a", "b", [1], 5, 0, 0⟩) := by
  have h1 := createFile_contract emptyStore "a" "b" 5 [1]
  have h2 := createFile_contract (createFile emptyStore "a" "b" 5 [1]).2
    "c" "d" 6 []
  exact ⟨h1.1.mpr rfl, h2.2.1 (by decide), h1.2.2 rfl⟩

/-- C4: provided every `CreateFile` uses `L ≥ 0`, every reachable
metadata record satisfies the state invariant — `0 ≤ CurPos ≤ Length`
while incomplete, `CurPos = FileComplete` on completion, and the
sentinel `InvalidPos` never stored — and `CreateFile`, `WriteAt` and
`DeleteFile` all preserve it. -/
theorem state_invariant (s : Store) (n ct : String) (L : Int)
    (h : List Byte) (pos : Int) (d : List Byte) (now : Nat) :
    Inv emptyStore ∧
    (0 ≤ L → Inv s → Inv (createFile s n ct L h).2) ∧
    (Inv s → Inv (writeAt s pos d now).2.2) ∧
    (Inv s → Inv (deleteFile s).2) := by
  refine ⟨?_, ?_, ?_, ?_⟩
  · intro fi hfi
    simp [emptyStore] at hfi
  · intro hL hInv fi hfi
    rcases hm : s.meta with _ | fo
    · simp only [createFile, hm, Option.some.injEq] at hfi
      subst hfi
      exact ⟨show (0 : Int) ≠ InvalidPos by decide, Or.inr ⟨le_rfl, hL⟩⟩
    · simp only [createFile, hm, Option.some.injEq] at hfi
      exact hfi ▸ hInv fo hm
  · intro hInv fi hfi
    rcases writeAt_shape s pos d now with ⟨-, hstate, -⟩ |
      ⟨fo, hms, hge, hpe, hle, -, -, hbr⟩
    · rw [hstate] at hfi
      exact hInv fi hfi
    · rcases hbr with ⟨-, -, hsh, hmeta⟩ | ⟨hlt, -, hmeta⟩
      · rw [hmeta, Option.some.injEq] at hfi
        subst hfi
        exact ⟨show FileComplete ≠ InvalidPos by decide, Or.inl rfl⟩
      · rw [hmeta, Option.some.injEq] at hfi
        subst hfi
        refine ⟨?_, Or.inr ⟨?_, ?_⟩⟩
        · simp only [InvalidPos]
          intro hcon
          omega
        · simp only []
          omega
        · simp only []
          omega
  · intro hInv fi hfi
    rcases hm : s.meta with _ | fo <;> simp [deleteFile, hm] at hfi

theorem state_invariant_witness :
    Inv (createFile emptyStore "a" "b" 5 []).2 ∧
    Inv (writeAt (createFile emptyStore "a" "b" 5 []).2 0 [1, 2] 3).2.2 := by
  have h1 := state_invariant emptyStore "a" "b" 5 [] 0 [1, 2] 3
  have h2 := state_invariant (createFile emptyStore "a" "b" 5 []).2
    "a" "b" 5 [] 0 [1, 2] 3
  exact ⟨h1.2.1 (by decide) h1.1, h2.2.2.1 (h1.2.1 (by decide) h1.1)⟩

/-- C6 (amended): for a key in the OPEN state (metadata present with
`CurPos ≥ 0`), `WriteAt(K, pos, *)` with `pos ≠ Stat(K).Next` returns
`ErrInvalidPos` and leaves the store unchanged.  For a COMPLETE file
(`CurPos = FileComplete`) the outcome depends on the pre-checks, which
run before the metadata is read: a non-negative block-aligned `pos`
reaches the completion check and gets `ErrExists`, while a negative or
misaligned `pos` is rejected with `ErrInvalidPos` by the pre-check. -/
theorem writeAt_wrong_pos_open (s : Store) (fi : Info) (pos : Int)
    (d : List Byte) (now : Nat) (hm : s.meta = some fi) :
    (0 ≤ fi.curPos → pos ≠ fi.curPos →
      writeAt s pos d now = (InvalidPos, some .errInvalidPos, s)) ∧
    (fi.curPos = FileComplete → 0 ≤ pos → pos.toNat % BlockSize = 0 →
      writeAt s pos d now = (InvalidPos, some .errExists, s)) ∧
    ((pos < 0 ∨ pos.toNat % BlockSize ≠ 0) →
      writeAt s pos d now = (InvalidPos, some .errInvalidPos, s)) := by
  refine ⟨?_, ?_, ?_⟩
  · intro hopen hp
    by_cases h0 : pos < 0
    · simp [writeAt, h0]
    · simp only [writeAt, if_neg h0, hm]
      by_cases hrr : pos.toNat % BlockSize = 0
      · rw [if_neg (by simpa using hrr), if_neg (by omega), if_pos hp]
      · rw [if_pos hrr]
  · intro hc h0 hrr
    simp only [writeAt, if_neg (show ¬pos < 0 by omega), hm]
    rw [if_neg (by simpa using hrr), if_pos (show fi.curPos < 0 by
      rw [hc]; decide)]
  · intro hbad
    by_cases h0 : pos < 0
    · simp [writeAt, h0]
    · have hrr : pos.toNat % BlockSize ≠ 0 := by
        rcases hbad with h | h
        · exact absurd h h0
        · exact h
      simp only [writeAt, if_neg h0, hm]
      rw [if_pos hrr]

theorem writeAt_wrong_pos_open_witness :
    writeAt (createFile emptyStore "a" "" 5 []).2 3 [1] 7 =
      (InvalidPos, some .errInvalidPos,
        (createFile emptyStore "a" "" 5 []).2) ∧
    writeAt (writeList (createFile emptyStore "a" "" 1 []).2 [[7]] 3).2.2
      0 [8] 4 = (InvalidPos, some .errExists,
        (writeList (createFile emptyStore "a" "" 1 []).2 [[7]] 3).2.2) ∧
    writeAt (writeList (createFile emptyStore "a" "" 1 []).2 [[7]] 3).2.2
      1 [8] 4 = (InvalidPos, some .errInvalidPos,
        (writeList (createFile emptyStore "a" "" 1 []).2 [[7]] 3).2.2) := by
  have h1 := writeAt_wrong_pos_open (createFile emptyStore "a" "" 5 []).2
    ⟨"a", "", [], 5, 0, 0, none⟩ 3 [1] 7 (by decide)
  have h2 := writeAt_wrong_pos_open
    (writeList (createFile emptyStore "a" "" 1 []).2 [[7]] 3).2.2
    ⟨"a", "", [7], 1, 3, FileComplete, none⟩ 0 [8] 4 (by decide)
  have h3 := writeAt_wrong_pos_open
    (writeList (createFile emptyStore "a" "" 1 []).2 [[7]] 3).2.2
    ⟨"a", "", [7], 1, 3, FileComplete, none⟩ 1 [8] 4 (by decide)
  exact ⟨h1.1 (by decide) (by decide), h2.2.1 rfl (by decide) (by decide),
    h3.2.2 (Or.inr (by decide))⟩

/-- C6 counterexample: on a COMPLETE file (`Stat.Next = FileComplete`)
a `WriteAt` whose `pos = 0` differs from `Next` returns `ErrExists`,
not `ErrInvalidPos` as the claim states. -/
theorem writeAt_wrong_pos_complete_counterexample :
    stat (writeList (createFile emptyStore "a" "" 1 []).2 [[7]] 3).2.2 =
      (none, some ⟨"a", "", [7], 1, FileComplete, 3⟩) ∧
    (0 : Int) ≠ FileComplete ∧
    (writeAt (writeList (createFile emptyStore "a" "" 1 []).2 [[7]] 3).2.2
      0 [8] 4).2.1 = some Err.errExists ∧
    some Err.errExists ≠ some Err.errInvalidPos := by decide

/-- C8 (amended): every successful `WriteAt` (appending or finalizing)
stores `Created = now`; `CreateFile`, however, never assigns `Created`,
so the record it persists carries the zero timestamp. -/
theorem created_on_mutation (s sw : Store) (n ct : String) (L : Int)
    (h : List Byte) (pos : Int) (d : List Byte) (now : Nat) :
    (s.meta = none → (createFile s n ct L h).2.meta =
      some ⟨n, ct, h, L, 0, 0, none⟩) ∧
    ((writeAt sw pos d now).2.1 = none →
      ∃ fi, (writeAt sw pos d now).2.2.meta = some fi ∧ fi.created = now) := by
  constructor
  · intro hm
    simp [createFile, hm]
  · intro hok
    rcases writeAt_shape sw pos d now with ⟨hne, -, -⟩ |
      ⟨fo, -, -, -, -, -, -, hbr⟩
    · exact absurd hok hne
    · rcases hbr with ⟨-, -, hsh, hmeta⟩ | ⟨-, -, hmeta⟩
      · exact ⟨_, hmeta, rfl⟩
      · exact ⟨_, hmeta, rfl⟩

theorem created_on_mutation_witness :
    (createFile emptyStore "a" "b" 5 []).2.meta =
      some ⟨"a", "b", [], 5, 0, 0, none⟩ ∧
    ∃ fi, (writeAt (createFile emptyStore "a" "b" 5 []).2 0
      [1, 2, 3, 4, 5] 9).2.2.meta = some fi ∧ fi.created = 9 := by
  have hc := created_on_mutation emptyStore
    (createFile emptyStore "a" "b" 5 []).2 "a" "b" 5 [] 0 [1, 2, 3, 4, 5] 9
  exact ⟨hc.1 rfl, hc.2 (by decide)⟩

/-- C8 counterexample: the record stored by `CreateFile` carries the
zero timestamp whatever the wall clock reads (the Go code never sets
`Created` there), so at any nonzero creation time the stored `Created`
differs from it. -/
theorem createFile_created_counterexample :
    (createFile emptyStore "a" "b" 5 []).2.meta =
      some ⟨"a", "b", [], 5, 0, 0, none⟩ ∧ (0 : Nat) ≠ 1 := by decide

/-- C9 (source behavior): `MarshalBinary` returns the state verbatim —
in particular the empty byte string for a fresh digest — but the guard
`len(b) != d.Size() && len(b) == 0` in `UnmarshalBinary` rejects
exactly the empty input and accepts every non-empty length, including
lengths other than the digest size: the opposite of the documented
"digest size or empty" rule, and it breaks the marshal/unmarshal
round-trip for a fresh digest. -/
theorem cumulative_unmarshal_guard :
    CDigest.marshalBinary ⟨none⟩ = [] ∧
    CDigest.unmarshalBinary ⟨some [1, 2]⟩ [] =
      (some "cumulative: invalid hash state size", ⟨some [1, 2]⟩) ∧
    CDigest.unmarshalBinary ⟨none⟩ [1, 2, 3, 4, 5] =
      (none, ⟨some [1, 2, 3, 4, 5]⟩) ∧
    CDigest.unmarshalBinary ⟨none⟩
        [1, 2, 3, 4, 5, 6, 7, 8, 9, 10, 11, 12, 13, 14, 15, 16] =
      (none, ⟨some [1, 2, 3, 4, 5, 6, 7, 8, 9, 10, 11, 12, 13, 14, 15, 16]⟩) := by
  constructor
  · rfl
  constructor
  · simp [CDigest.unmarshalBinary, CDigest.size]
  constructor
  · simp [CDigest.unmarshalBinary, CDigest.size]
  · simp [CDigest.unmarshalBinary, CDigest.size]

/-- C10: `CreateFile` performs no validation of the declared size: for
`L < 0` it succeeds and stores `Length = L`, `CurPos = 0`; afterwards
every `WriteAt` at `pos = 0` — even with empty data — returns
`ErrInvalidSize` (since `0 + len(data) > L`), and in fact every
`WriteAt` whatever its `pos` fails leaving the store unchanged, so the
file can never reach the COMPLETE state. -/
theorem createFile_negative_size (s : Store) (n ct : String) (L : Int)
    (h : List Byte) (hm : s.meta = none) (hL : L < 0) :
    (createFile s n ct L h).1 = none ∧
    (createFile s n ct L h).2.meta = some ⟨n, ct, h, L, 0, 0, none⟩ ∧
    (∀ data now, writeAt (createFile s n ct L h).2 0 data now =
      (InvalidPos, some .errInvalidSize, (createFile s n ct L h).2)) ∧
    (∀ pos data now,
      (writeAt (createFile s n ct L h).2 pos data now).2.1 ≠ none ∧
      (writeAt (createFile s n ct L h).2 pos data now).2.2 =
        (createFile s n ct L h).2) := by
  have hmeta : (createFile s n ct L h).2.meta =
      some ⟨n, ct, h, L, 0, 0, none⟩ := by
    simp [createFile, hm]
  refine ⟨by simp [createFile, hm], hmeta, ?_, ?_⟩
  · intro data now
    have hsz : (0 : Int) + (data.length : Int) > L := by
      have h1 : (0 : Int) ≤ (data.length : Int) := by positivity
      omega
    simp only [writeAt, if_neg (show ¬(0 : Int) < 0 by decide), hmeta]
    simp [hsz]
    intro h1 h2
    exfalso
    omega
  · intro pos data now
    rcases writeAt_shape (createFile s n ct L h).2 pos data now with
      ⟨hne, hst, -⟩ | ⟨fo, hms, hge, hpe, hle, -, -, -⟩
    · exact ⟨hne, hst⟩
    · exfalso
      rw [hmeta, Option.some.injEq] at hms
      subst hms
      simp only [] at hpe hle
      have : (0 : Int) ≤ (data.length : Int) := by positivity
      omega

theorem createFile_negative_size_witness :
    (createFile emptyStore "n" "" (-3) []).1 = none ∧
    writeAt (createFile emptyStore "n" "" (-3) []).2 0 [1] 5 =
      (InvalidPos, some .errInvalidSize, (createFile emptyStore "n" "" (-3) []).2) ∧
    (writeAt (createFile emptyStore "n" "" (-3) []).2 16384 [1] 5).2.1 ≠ none := by
  have hc := createFile_negative_size emptyStore "n" "" (-3) [] rfl (by decide)
  exact ⟨hc.1, hc.2.2.1 [1] 5, (hc.2.2.2 16384 [1] 5).1⟩

/-- C2 (source behavior at the failing input): a fresh file with
`Length = 100` accepts `WriteAt(0, 5 bytes)` — a partial write that
does not end at `Length` — returning the new cursor `5` and storing
`CurPos = 5`; the block-count guard `startBlock+nblocks < fblocks`
does not fire because the write lands in the tail-block region.  The
file is then wedged: the only acceptable offset `5` is rejected by the
alignment pre-check (`5 % B ≠ 0`), so no further write can ever
succeed. -/
theorem nontail_short_write_accepted :
    (writeAt (createFile emptyStore "f" "" 100 []).2 0 [1, 2, 3, 4, 5] 7).1 =
      5 ∧
    (writeAt (createFile emptyStore "f" "" 100 []).2 0
      [1, 2, 3, 4, 5] 7).2.1 = none ∧
    stat (writeAt (createFile emptyStore "f" "" 100 []).2 0
      [1, 2, 3, 4, 5] 7).2.2 = (none, some ⟨"f", "", [], 100, 5, 7⟩) ∧
    some Err.errInvalidSize ≠ (none : Option Err) ∧
    (writeAt (writeAt (createFile emptyStore "f" "" 100 []).2 0
      [1, 2, 3, 4, 5] 7).2.2 5 [9] 8).2.1 = some Err.errInvalidPos ∧
    (writeAt (writeAt (createFile emptyStore "f" "" 100 []).2 0
      [1, 2, 3, 4, 5] 7).2.2 0 [9] 8).2.1 = some Err.errInvalidPos := by
  decide

/-- C3 (amended): when the finalizing `WriteAt` computes a digest
different from a non-empty declared `Hash`, it returns
`ErrInvalidHash`; in the embedded backend the transaction rolls back,
so the block records written by the call are discarded and the
metadata is unchanged (`Stat.Next` stays at the call's `pos`, i.e. the
pre-call `CurPos`, and `CurHash` keeps its previous value); in the
object-store backend the block objects written by the call remain
while the metadata row is likewise unchanged. -/
theorem finalize_hash_mismatch (s : Store) (fi : Info) (pos : Int)
    (d : List Byte) (now : Nat) (hm : s.meta = some fi)
    (hpe : pos = fi.curPos) (h0 : 0 ≤ pos)
    (hrr : pos.toNat % BlockSize = 0)
    (hfin : pos + (d.length : Int) = fi.length)
    (hne : fi.hash ≠ [])
    (hmm : fi.hash ≠ digestOf (unmarshalHashState fi.curHash ++ d)) :
    writeAt s pos d now = (InvalidPos, some .errInvalidHash, s) ∧
    awsWriteAt s pos d now =
      (InvalidPos, some .errInvalidHash,
        { s with blocks := (writeLoop s.blocks
            (unmarshalHashState fi.curHash) (pos.toNat / BlockSize) d).1 }) := by
  have h0' : ¬pos < 0 := by omega
  have hcp : ¬fi.curPos < 0 := by omega
  have hsz : ¬pos + (d.length : Int) > fi.length := by omega
  have hptn : pos = (pos.toNat : Int) := (Int.toNat_of_nonneg h0).symm
  have hpdvd : pos.toNat = BlockSize * (pos.toNat / BlockSize) :=
    (Nat.mul_div_cancel' (Nat.dvd_of_mod_eq_zero hrr)).symm
  have hdiv : (pos.toNat + d.length) / BlockSize =
      pos.toNat / BlockSize + d.length / BlockSize := by
    conv_lhs => rw [hpdvd]
    rw [Nat.mul_add_div (by decide)]
  have hlen : fi.length = ((pos.toNat + d.length : Nat) : Int) := by
    push_cast
    omega
  have hfb : ¬(((pos.toNat / BlockSize : Nat) : Int) +
      ((d.length / BlockSize : Nat) : Int) <
      Int.tdiv fi.length ((BlockSize : Nat) : Int) ∧
      d.length % BlockSize ≠ 0) := by
    rw [hlen, tdiv_natCast, hdiv]
    rintro ⟨hlt2, -⟩
    push_cast at hlt2
    omega
  have hfin' : fi.curPos + (d.length : Int) = fi.length := by omega
  have hmm' : fi.hash ≠ digestOf (writeLoop s.blocks
      (unmarshalHashState fi.curHash) (pos.toNat / BlockSize) d).2 := by
    rw [digestOf, writeLoop_hash]
    exact hmm
  constructor
  · simp only [writeAt, if_neg h0', hm]
    rw [if_neg (by simpa using hrr), if_neg hcp,
      if_neg (by simpa using hpe), if_neg hsz, if_neg hfb, if_pos hfin',
      if_neg hne, if_pos hmm']
  · simp only [awsWriteAt, if_neg h0', hm]
    rw [if_neg (by simpa using hrr), if_neg hcp,
      if_neg (by simpa using hpe), if_neg hsz, if_neg hfb, if_pos hfin',
      if_neg hne, if_pos hmm']

theorem finalize_hash_mismatch_witness :
    writeAt (createFile emptyStore "x" "" 5 [9, 9]).2 0 [1, 2, 3, 4, 5] 3 =
      (InvalidPos, some .errInvalidHash,
        (createFile emptyStore "x" "" 5 [9, 9]).2) ∧
    (awsWriteAt (createFile emptyStore "x" "" 5 [9, 9]).2 0
      [1, 2, 3, 4, 5] 3).2.1 = some .errInvalidHash := by
  have hc := finalize_hash_mismatch (createFile emptyStore "x" "" 5 [9, 9]).2
    ⟨"x", "", [9, 9], 5, 0, 0, none⟩ 0 [1, 2, 3, 4, 5] 3
    (by decide) (by decide) (by decide) (by decide) (by decide)
    (by decide) (by decide)
  exact ⟨hc.1, by rw [hc.2]⟩

/-- C3 counterexample: at the concrete finalizing write with a
mismatching declared hash (embedded backend), the blocks written by
the call do not remain (the transaction rolled back, block `0` is
absent), `Stat.Next` remains at the pre-call cursor `0`, not at
`Length = 5`, and `CurHash` is still empty rather than non-empty. -/
theorem finalize_hash_mismatch_counterexample :
    (writeAt (createFile emptyStore "x" "" 5 [9, 9]).2 0
      [1, 2, 3, 4, 5] 3).2.1 = some Err.errInvalidHash ∧
    (writeAt (createFile emptyStore "x" "" 5 [9, 9]).2 0
      [1, 2, 3, 4, 5] 3).2.2.meta = some ⟨"x", "", [9, 9], 5, 0, 0, none⟩ ∧
    (0 : Int) ≠ 5 ∧
    getBlock (writeAt (createFile emptyStore "x" "" 5 [9, 9]).2 0
      [1, 2, 3, 4, 5] 3).2.2.blocks 0 = none := by
  decide

end Cashier
